import Mathlib

/-!
Shallow embedding of `src/lib.rs` of the strsim crate (an early version using
`Bitv` and `str::char_at`).  Rust strings are modelled as lists of Unicode
scalar values (`List Char`).  Crucially, in this version of the code
`str::len()` is the UTF-8 *byte* length, and `str::char_at(j)` reads the
character starting at *byte offset* `j`, panicking when `j` is not a character
boundary; both are modelled faithfully below (`byteLen`, `charAt`, with panics
embedded as `Option.none`).  `f64` arithmetic on the similarity scores is
modelled exactly over `ℚ` (all quantities involved are small integer counts and
the literals `0.1`, `1.0/3.0` become the rationals `1/10`, `1/3`).  `usize`
arithmetic is `ℕ`, except for the one subtraction that can actually wrap for
real inputs (`max(a.len(), b.len()) / 2 - 1` when both strings are one byte
long), which is modelled with its wrap-around value `2^64 - 1`.
-/

namespace Strsim

/-- Number of bytes of the UTF-8 encoding of a Unicode scalar value. -/
def utf8Width (c : Char) : ℕ :=
  if c.toNat < 0x80 then 1
  else if c.toNat < 0x800 then 2
  else if c.toNat < 0x10000 then 3
  else 4

/-- Rust `str::len()`: the length in bytes of the UTF-8 encoding. -/
def byteLen (s : List Char) : ℕ :=
  (s.map utf8Width).sum

/-- Rust `str::char_at(j)` of this era: the character starting at byte offset
`j`; `none` models the panic raised when `j` is out of bounds or is not a
character boundary. -/
def charAt : List Char → ℕ → Option Char
  | [], _ => none
  | c :: rest, j =>
      if j = 0 then some c
      else if j < utf8Width c then none
      else charAt rest (j - utf8Width c)

/-- The error type of the crate. -/
inductive StrSimError where
  | DifferentLengthArgs
deriving DecidableEq

/-- Rust `type HammingResult = Result<usize, StrSimError>`. -/
def HammingResult : Type := Except StrSimError ℕ

/-- Rust `hamming`: compares the *byte* lengths, and on equality counts the
mismatching pairs of the zipped character iterators. -/
def hamming (a b : List Char) : HammingResult :=
  if byteLen a ≠ byteLen b then Except.error StrSimError.DifferentLengthArgs
  else Except.ok (((a.zip b).filter (fun p => p.1 != p.2)).length)

/-- Wrapping `usize` predecessor: models `x - 1` on `usize` (this underflows to
`2^64 - 1` when `x = 0`, which the code reaches when both inputs are single
bytes; combined with the no-op `max(0, _)` of the source). -/
def wrapPred (x : ℕ) : ℕ :=
  if x = 0 then 2 ^ 64 - 1 else x - 1

/-- Rust `let search_range = max(0, (max(a.len(), b.len()) / 2) - 1)`. -/
def searchRange (a b : List Char) : ℕ :=
  wrapPred (max (byteLen a) (byteLen b) / 2)

/-- The mutable state of `jaro`'s outer loop: the `Bitv` of consumed byte
positions of `b`, the match and transposition counters (`f64` counters holding
exact small integers, kept as `ℕ` here), and `b_match_index`. -/
structure JaroState where
  consumed : Finset ℕ
  matchCount : ℕ
  transpositions : ℕ
  bMatchIndex : ℕ
deriving DecidableEq

/-- The inner loop `for j in min_bound..max_bound + 1` of `jaro`, scanning `k`
byte offsets of `b` starting at `j`.  Each offset is read with `char_at`;
`none` models the panic at a non-boundary offset.  `some none` means the scan
finished without a match, `some (some j)` that the first match is at offset
`j`. -/
def scanRange (b : List Char) (aChar : Char) (consumed : Finset ℕ) :
    ℕ → ℕ → Option (Option ℕ)
  | _, 0 => some none
  | j, k + 1 =>
      match charAt b j with
      | none => none
      | some c =>
          if c = aChar ∧ j ∉ consumed then some (some j)
          else scanRange b aChar consumed (j + 1) k

/-- The outer loop `for (i, a_char) in a.chars().enumerate()` of `jaro`,
threading the loop state; `none` propagates a panic of the inner scan. -/
def jaroLoop (b : List Char) (sr : ℕ) :
    List (ℕ × Char) → JaroState → Option JaroState
  | [], st => some st
  | (i, aChar) :: rest, st =>
      let lo := if i > sr then i - sr else 0
      let hi := min (byteLen b - 1) (i + sr)
      match scanRange b aChar st.consumed lo (hi + 1 - lo) with
      | none => none
      | some none => jaroLoop b sr rest st
      | some (some j) =>
          jaroLoop b sr rest
            ⟨insert j st.consumed, st.matchCount + 1,
             if j < st.bMatchIndex then st.transpositions + 1
             else st.transpositions,
             j⟩

/-- The inner scan of `jaroLoop` for the character of `a` at index `i`, with
the window bounds written with truncated subtraction. -/
def scanWindow (b : List Char) (sr i : ℕ) (aChar : Char)
    (consumed : Finset ℕ) : Option (Option ℕ) :=
  scanRange b aChar consumed (i - sr) (min (byteLen b - 1) (i + sr) + 1 - (i - sr))

/-- Rust `jaro`, with the panic reachable through `char_at` embedded as
`none`. -/
def jaro (a b : List Char) : Option ℚ :=
  if a = b then some 1
  else if byteLen a = 0 ∨ byteLen b = 0 then some 0
  else
    match jaroLoop b (searchRange a b) a.enum ⟨∅, 0, 0, 0⟩ with
    | none => none
    | some st =>
        if st.matchCount = 0 then some 0
        else some ((1 / 3) * ((st.matchCount : ℚ) / (byteLen a : ℚ) +
                              (st.matchCount : ℚ) / (byteLen b : ℚ) +
                              ((st.matchCount : ℚ) - (st.transpositions : ℚ)) /
                                (st.matchCount : ℚ)))

/-- Rust `a.chars().zip(b.chars()).take_while(|&(x, y)| x == y).count()`, the
common-prefix length computed by `jaro_winkler`. -/
def commonPrefixLen (a b : List Char) : ℕ :=
  ((a.zip b).takeWhile (fun p => p.1 == p.2)).length

/-- Rust `jaro_winkler`; a panic of `jaro` propagates. -/
def jaro_winkler (a b : List Char) : Option ℚ :=
  (jaro a b).map
    (fun jd => jd + (1 / 10) * (commonPrefixLen a b : ℚ) * (1 - jd))

/-- The inner loop `for (j, b_char) in b.chars().enumerate()` of `levenshtein`,
updating the current row in place. -/
def levInner (aChar : Char) (prev : List ℕ) :
    List (ℕ × Char) → List ℕ → List ℕ
  | [], curr => curr
  | (j, bChar) :: rest, curr =>
      let cost : ℕ := if aChar = bChar then 0 else 1
      let v := min (curr.getD j 0 + 1)
                 (min (prev.getD (j + 1) 0 + 1) (prev.getD j 0 + cost))
      levInner aChar prev rest (curr.set (j + 1) v)

/-- The outer loop `for (i, a_char) in a.chars().enumerate()` of `levenshtein`;
after each row, `prev_distances.clone_from(&curr_distances)`. -/
def levOuter (b : List Char) :
    List (ℕ × Char) → List ℕ → List ℕ → List ℕ
  | [], _, curr => curr
  | (i, aChar) :: rest, prev, curr =>
      let curr2 := levInner aChar prev b.enum (curr.set 0 (i + 1))
      levOuter b rest curr2 curr2

/-- Rust `levenshtein`.  Both rows have `b.len() + 1` entries where `len` is
the *byte* length, and the final answer is read at index `b.len()`. -/
def levenshtein (a b : List Char) : ℕ :=
  if a = b then 0
  else if byteLen a = 0 then byteLen b
  else if byteLen b = 0 then byteLen a
  else
    (levOuter b a.enum (List.range (byteLen b + 1))
        (List.replicate (byteLen b + 1) 0)).getD (byteLen b) 0

/-- The count of positions at which corresponding characters differ, stated
declaratively over character indices (used to restate `hamming`'s result). -/
def diffCount (a b : List Char) : ℕ :=
  ((List.range (min a.length b.length)).filter
    (fun i => a.get? i != b.get? i)).length

/-- Longest common prefix length of two character sequences, the declarative
counterpart of the `zip`/`take_while` scan in `jaro_winkler`. -/
def lcp : List Char → List Char → ℕ
  | x :: xs, y :: ys => if x = y then lcp xs ys + 1 else 0
  | _, _ => 0

/-- Modelled from the spec (section 4.2): the scan of the window
`[lo, hi]` of character positions of `b`, in ascending order, looking for the
first unconsumed position holding `aChar`. -/
def specFind (b : List Char) (aChar : Char) (consumed : Finset ℕ)
    (lo hi : ℕ) : Option ℕ :=
  (List.range' lo (hi + 1 - lo)).find?
    (fun j => decide (b.get? j = some aChar ∧ j ∉ consumed))

/-- Modelled from the spec (section 4.2): the matching loop over the
characters of `a`, with the search window, lengths and indices all in
character units, and the transposition tracking of the spec. -/
def jaroSpecLoop (b : List Char) (sr : ℕ) :
    List (ℕ × Char) → JaroState → JaroState
  | [], st => st
  | (i, aChar) :: rest, st =>
      match specFind b aChar st.consumed (i - sr)
          (min (b.length - 1) (i + sr)) with
      | none => jaroSpecLoop b sr rest st
      | some j =>
          jaroSpecLoop b sr rest
            ⟨insert j st.consumed, st.matchCount + 1,
             if j < st.bMatchIndex then st.transpositions + 1
             else st.transpositions,
             j⟩

/-- Modelled from the spec (section 4.2): the Jaro similarity with all
lengths and indices in character units (`searchRange = max(0, ⌊max(len a,
len b) / 2⌋ - 1)` is the truncated subtraction on `ℕ`). -/
def jaroSpec (a b : List Char) : ℚ :=
  if a = b then 1
  else if a.length = 0 ∨ b.length = 0 then 0
  else
    let st := jaroSpecLoop b (max a.length b.length / 2 - 1) a.enum ⟨∅, 0, 0, 0⟩
    if st.matchCount = 0 then 0
    else (1 / 3) * ((st.matchCount : ℚ) / (a.length : ℚ) +
                    (st.matchCount : ℚ) / (b.length : ℚ) +
                    ((st.matchCount : ℚ) - (st.transpositions : ℚ)) /
                      (st.matchCount : ℚ))

/-- The sequence of byte positions of `b` matched by `jaro`'s loop, in match
order (the trace of `jaroLoop`); `none` again models the panic. -/
def matchSeq (b : List Char) (sr : ℕ) :
    List (ℕ × Char) → Finset ℕ → Option (List ℕ)
  | [], _ => some []
  | (i, aChar) :: rest, consumed =>
      let lo := if i > sr then i - sr else 0
      let hi := min (byteLen b - 1) (i + sr)
      match scanRange b aChar consumed lo (hi + 1 - lo) with
      | none => none
      | some none => matchSeq b sr rest consumed
      | some (some j) =>
          (matchSeq b sr rest (insert j consumed)).map (fun L => j :: L)

/-- Number of backward steps in a sequence of match positions, starting from
the initial `lastMatchIndex` value: counts the elements strictly smaller than
their predecessor (the spec's transposition-event count). -/
def descSteps : ℕ → List ℕ → ℕ
  | _, [] => 0
  | last, j :: L => (if j < last then 1 else 0) + descSteps j L

/-- The loop invariant of `jaro`: the consumed positions lie below `b.len()`,
the match counter equals the number of consumed positions, and the
transposition counter never exceeds the match counter. -/
def JaroInv (b : List Char) (st : JaroState) : Prop :=
  st.consumed ⊆ Finset.range (byteLen b) ∧
  st.matchCount = st.consumed.card ∧
  st.transpositions ≤ st.matchCount

/-!
Validation of the embedding against the crate's own unit tests (character
lists spell the test strings of `src/lib.rs`).
-/

example : hamming ['h','a','m','m','i','n','g'] ['h','a','m','m','e','r','s'] = Except.ok 3 := rfl

example : hamming ['é'] ['a'] = Except.error StrSimError.DifferentLengthArgs := rfl

example : hamming ['é'] ['a','b'] = Except.ok 1 := rfl

example : hamming "Friedrich Nietzs".toList "Jean-Paul Sartre".toList = Except.ok 14 := rfl

example : levenshtein ['k','i','t','t','e','n'] ['s','i','t','t','i','n','g'] = 3 := rfl

example : levenshtein "hello, world".toList "bye, world".toList = 5 := rfl

/-- Evaluation helper: when the matching loop completes with `m` matches and
`t` transpositions on inputs of byte lengths `la`, `lb`, `jaro` returns the
final formula.  This lets concrete runs be checked by `decide` on the
`ℕ`-valued loop and `norm_num` on the rational formula. -/
theorem jaro_eval (a b : List Char) (m t la lb : ℕ)
    (hne : a ≠ b) (hla : byteLen a = la) (hlb : byteLen b = lb)
    (hla0 : la ≠ 0) (hlb0 : lb ≠ 0)
    (h : (jaroLoop b (searchRange a b) a.enum ⟨∅, 0, 0, 0⟩).map
          (fun st => (st.matchCount, st.transpositions)) = some (m, t))
    (hm : m ≠ 0) :
    jaro a b = some ((1 / 3) * ((m : ℚ) / (la : ℚ) + (m : ℚ) / (lb : ℚ) +
      ((m : ℚ) - (t : ℚ)) / (m : ℚ))) := by
  rcases hcase : jaroLoop b (searchRange a b) a.enum ⟨∅, 0, 0, 0⟩ with _ | st
  · rw [hcase] at h; simp at h
  · rw [hcase] at h
    simp only [Option.map_some', Option.some.injEq, Prod.mk.injEq] at h
    unfold jaro
    rw [if_neg hne, if_neg (by simp [hla, hlb, hla0, hlb0]), hcase]
    simp only [h.1, h.2, if_neg hm, hla, hlb]

/-- C1: the claim says `levenshtein` returns the minimum number of
character-level edits, with `levenshtein("", s)` equal to the character count
of `s`.  The code violates this: it sizes and reads its rows by *byte* length,
so `levenshtein("", "é") = 2` (the byte length, not the character count `1`)
and `levenshtein("x", "é") = 0` even though the strings differ (the answer is
read from a row cell beyond the character-indexed prefix, still holding its
initial value `0`). -/
theorem levenshtein_charcount_bug :
    levenshtein [] ['é'] = 2 ∧ (['é'] : List Char).length = 1 ∧
    levenshtein ['x'] ['é'] = 0 ∧ (['x'] : List Char) ≠ ['é'] := by
  refine ⟨rfl, rfl, rfl, by decide⟩

/-- C2: the claim says `jaro`, `jaro_winkler` and `levenshtein` are total and
never panic, including on multi-byte characters.  The code violates this:
`jaro("ab", "éa")` reaches `b.char_at(1)`, byte offset `1` being in the middle
of the two-byte character `é`, which panics (modelled as `none`); the panic
propagates to `jaro_winkler`. -/
theorem similarity_totality_bug :
    jaro ['a','b'] ['é','a'] = none ∧
    jaro_winkler ['a','b'] ['é','a'] = none := by
  refine ⟨rfl, rfl⟩

/-- C8: the claim states the triangle inequality for `levenshtein`.  The code
violates it: because the final answer is read at the byte-length index of a
row whose cells past the character count keep their initial value `0`,
`levenshtein("zzz", "é") = 0`, while `levenshtein("zzz", "ab") = 3` and
`levenshtein("é", "ab") = 2`, so `3 ≤ 0 + 2` fails. -/
theorem levenshtein_triangle_bug :
    ¬ (levenshtein ['z','z','z'] ['a','b'] ≤
        levenshtein ['z','z','z'] ['é'] + levenshtein ['é'] ['a','b']) ∧
    levenshtein ['z','z','z'] ['a','b'] = 3 ∧
    levenshtein ['z','z','z'] ['é'] = 0 ∧
    levenshtein ['é'] ['a','b'] = 2 := by
  refine ⟨by decide, rfl, rfl, rfl⟩

/-- C3, counterexample: the claim says `hamming` fails exactly when the
*character* counts differ.  But `hamming("é", "a")` fails with
`DifferentLengthArgs` although both strings have character count `1` — the
code compares byte lengths (`2 ≠ 1`). -/
theorem hamming_char_count_counterexample :
    hamming ['é'] ['a'] = Except.error StrSimError.DifferentLengthArgs ∧
    (['é'] : List Char).length = (['a'] : List Char).length := by
  refine ⟨rfl, rfl⟩

/-- C5, counterexample: the claim says the matching scan runs over character
positions of `b` in character units.  On `jaro("xy", "éx")` the
character-unit procedure of the spec (`jaroSpec`) completes and returns `1/3`,
but the code scans *byte* offsets and panics reading offset `1`, inside the
two-byte `é`. -/
theorem jaro_char_units_counterexample :
    jaro ['x','y'] ['é','x'] = none ∧
    jaroSpec ['x','y'] ['é','x'] = 0 ∧
    jaro ['x','y'] ['é','x'] ≠ some (jaroSpec ['x','y'] ['é','x']) := by
  refine ⟨rfl, by decide, ?_⟩
  rw [show jaro ['x','y'] ['é','x'] = none from rfl]
  simp

/-- C6, counterexample: the claim's final formula divides the match count by
`len(a)` and `len(b)` in character units (spec section 4.2).  On
`jaro("aé", "a")` there is `1` match and `0` transpositions, so the claimed
value is `(1/3) * (1/2 + 1/1 + 1/1) = 5/6`, but the code divides by the byte
lengths `3` and `1` and returns `7/9`. -/
theorem jaro_result_formula_counterexample :
    jaro ['a','é'] ['a'] = some (7 / 9) ∧
    (1 / 3 : ℚ) * ((1 : ℚ) / 2 + (1 : ℚ) / 1 + ((1 : ℚ) - 0) / 1) = 5 / 6 ∧
    (7 / 9 : ℚ) ≠ 5 / 6 := by
  have h := jaro_eval ['a','é'] ['a'] 1 0 3 1 (by decide) rfl rfl
    (by decide) (by decide) (by decide) (by decide)
  refine ⟨?_, by norm_num, by norm_num⟩
  rw [h]; norm_num

/-- C10: two distinct strings with a common prefix of `11 > 10` characters
make the unbounded boost exceed the gap to `1`: `jaro` gives `17/18` here and
`jaro_winkler` returns `17/18 + 0.1 * 11 * (1 - 17/18) = 181/180 > 1`. -/
theorem jaro_winkler_gt_one :
    jaro_winkler ['a','b','c','d','e','f','g','h','i','j','k','x']
        ['a','b','c','d','e','f','g','h','i','j','k','y'] = some (181 / 180) ∧
    (1 : ℚ) < 181 / 180 := by
  have hj := jaro_eval ['a','b','c','d','e','f','g','h','i','j','k','x']
    ['a','b','c','d','e','f','g','h','i','j','k','y'] 11 0 12 12
    (by decide) rfl rfl (by decide) (by decide) (by decide) (by decide)
  refine ⟨?_, by norm_num⟩
  unfold jaro_winkler
  rw [hj]
  rw [show commonPrefixLen ['a','b','c','d','e','f','g','h','i','j','k','x']
        ['a','b','c','d','e','f','g','h','i','j','k','y'] = 11 from rfl]
  simp only [Option.map_some', Option.some.injEq]
  norm_num

lemma utf8Width_pos (c : Char) : 0 < utf8Width c := by
  unfold utf8Width; split_ifs <;> norm_num

lemma byteLen_cons (c : Char) (s : List Char) :
    byteLen (c :: s) = utf8Width c + byteLen s := by
  simp [byteLen]

lemma byteLen_eq_zero {s : List Char} : byteLen s = 0 ↔ s = [] := by
  cases s with
  | nil => simp [byteLen]
  | cons c s =>
      have := utf8Width_pos c
      simp only [byteLen_cons]
      constructor
      · intro h; omega
      · intro h; exact absurd h (by simp)

lemma length_le_byteLen (s : List Char) : s.length ≤ byteLen s := by
  induction s with
  | nil => simp [byteLen]
  | cons c s ih =>
      have := utf8Width_pos c
      simp only [byteLen_cons, List.length_cons]
      omega

lemma commonPrefixLen_eq_lcp (a b : List Char) :
    commonPrefixLen a b = lcp a b := by
  induction a generalizing b with
  | nil => cases b <;> simp [commonPrefixLen, lcp]
  | cons x xs ih =>
      cases b with
      | nil => simp [commonPrefixLen, lcp]
      | cons y ys =>
          by_cases h : x = y
          · subst h
            simp only [commonPrefixLen, lcp, List.zip_cons_cons,
              List.takeWhile_cons, beq_self_eq_true, if_pos rfl,
              List.length_cons]
            rw [← ih ys]
            rfl
          · simp only [commonPrefixLen, lcp, List.zip_cons_cons,
              List.takeWhile_cons]
            rw [if_neg h]
            simp [h]

/-- C7: `jaro_winkler` equals `jaro` plus the boost `0.1 * p * (1 - jaro)`,
where `p` is the longest common prefix length counted character by character,
with no 4-character cap and with no clamping of the result; when `jaro`
panics, so does `jaro_winkler`. -/
theorem jaro_winkler_formula (a b : List Char) :
    jaro_winkler a b =
      (jaro a b).map (fun d => d + (1 / 10) * (lcp a b : ℚ) * (1 - d)) := by
  unfold jaro_winkler
  rw [commonPrefixLen_eq_lcp]

lemma jaro_self (a : List Char) : jaro a a = some 1 := by
  unfold jaro; simp

/-- C9: `jaro_winkler` of a string with itself is `1`, and whenever the two
strings share a nonempty common prefix and the Jaro score (when it exists) is
below `1`, the Jaro-Winkler score exists and is at least the Jaro score. -/
theorem jaro_winkler_identity_and_boost :
    (∀ a : List Char, jaro_winkler a a = some 1) ∧
    (∀ (a b : List Char) (v : ℚ), jaro a b = some v → v < 1 →
      0 < commonPrefixLen a b →
      ∃ w : ℚ, jaro_winkler a b = some w ∧ v ≤ w) := by
  constructor
  · intro a
    unfold jaro_winkler
    rw [jaro_self]
    simp
  · intro a b v hv hlt hp
    refine ⟨v + (1 / 10) * (commonPrefixLen a b : ℚ) * (1 - v), ?_, ?_⟩
    · unfold jaro_winkler
      rw [hv]
      rfl
    · have hc : (0 : ℚ) ≤ (commonPrefixLen a b : ℚ) := by positivity
      have h1 : (0 : ℚ) ≤ (1 / 10) * (commonPrefixLen a b : ℚ) * (1 - v) := by
        apply mul_nonneg (by positivity)
        linarith
      linarith

/-- Witness for C9 at concrete inputs: `jaro("ab", "ac") = 2/3 < 1` and the
common prefix has length `1 > 0`. -/
theorem jaro_winkler_identity_and_boost_witness :
    jaro_winkler ['a'] ['a'] = some 1 ∧
    ∃ w : ℚ, jaro_winkler ['a','b'] ['a','c'] = some w ∧ (2 / 3 : ℚ) ≤ w := by
  refine ⟨jaro_winkler_identity_and_boost.1 ['a'],
    jaro_winkler_identity_and_boost.2 ['a','b'] ['a','c'] (2 / 3) ?_
      (by norm_num) (by decide)⟩
  have h := jaro_eval ['a','b'] ['a','c'] 1 0 2 2 (by decide) rfl rfl
    (by decide) (by decide) (by decide) (by decide)
  rw [h]
  norm_num

lemma jaroLoop_cons (b : List Char) (sr i : ℕ) (aChar : Char)
    (rest : List (ℕ × Char)) (st : JaroState) :
    jaroLoop b sr ((i, aChar) :: rest) st =
      match scanWindow b sr i aChar st.consumed with
      | none => none
      | some none => jaroLoop b sr rest st
      | some (some j) =>
          jaroLoop b sr rest
            ⟨insert j st.consumed, st.matchCount + 1,
             if j < st.bMatchIndex then st.transpositions + 1
             else st.transpositions,
             j⟩ := by
  have hlo : (if i > sr then i - sr else 0) = i - sr := by
    split <;> omega
  simp only [jaroLoop, scanWindow, hlo]

lemma charAt_lt_byteLen {s : List Char} {j : ℕ} {c : Char}
    (h : charAt s j = some c) : j < byteLen s := by
  induction s generalizing j with
  | nil => simp [charAt] at h
  | cons d rest ih =>
      unfold charAt at h
      by_cases h0 : j = 0
      · have := utf8Width_pos d
        rw [byteLen_cons]
        omega
      · rw [if_neg h0] at h
        by_cases h1 : j < utf8Width d
        · rw [if_pos h1] at h; exact absurd h (by simp)
        · rw [if_neg h1] at h
          have := ih h
          rw [byteLen_cons]
          omega

lemma scanRange_some_mem {b : List Char} {aChar : Char} {consumed : Finset ℕ} :
    ∀ {k j j'}, scanRange b aChar consumed j k = some (some j') →
      j' < byteLen b ∧ j' ∉ consumed := by
  intro k
  induction k with
  | zero => intro j j' h; simp [scanRange] at h
  | succ k ih =>
      intro j j' h
      unfold scanRange at h
      cases hc : charAt b j with
      | none => simp only [hc] at h; exact Option.noConfusion h
      | some c =>
          simp only [hc] at h
          by_cases hcond : c = aChar ∧ j ∉ consumed
          · rw [if_pos hcond] at h
            obtain rfl : j = j' := by simpa using h
            exact ⟨charAt_lt_byteLen hc, hcond.2⟩
          · rw [if_neg hcond] at h
            exact ih h

lemma jaroLoop_inv {b : List Char} {sr : ℕ} :
    ∀ {pairs : List (ℕ × Char)} {st st' : JaroState},
      jaroLoop b sr pairs st = some st' → JaroInv b st → JaroInv b st' := by
  intro pairs
  induction pairs with
  | nil =>
      intro st st' h hinv
      obtain rfl : st = st' := by simpa [jaroLoop] using h
      exact hinv
  | cons p rest ih =>
      obtain ⟨i, aChar⟩ := p
      intro st st' h hinv
      rw [jaroLoop_cons] at h
      rcases hscan : scanWindow b sr i aChar st.consumed with _ | jo
      · simp only [hscan] at h
        exact Option.noConfusion h
      · rcases jo with _ | j
        · simp only [hscan] at h
          exact ih h hinv
        · simp only [hscan] at h
          have hj : j < byteLen b ∧ j ∉ st.consumed :=
            scanRange_some_mem hscan
          refine ih h ⟨?_, ?_, ?_⟩
          · exact Finset.insert_subset (Finset.mem_range.mpr hj.1) hinv.1
          · show st.matchCount + 1 = (insert j st.consumed).card
            rw [Finset.card_insert_of_not_mem hj.2, hinv.2.1]
          · show (if j < st.bMatchIndex then st.transpositions + 1
              else st.transpositions) ≤ st.matchCount + 1
            have := hinv.2.2
            split <;> omega

lemma jaroLoop_matchCount_le {b : List Char} {sr : ℕ} :
    ∀ {pairs : List (ℕ × Char)} {st st' : JaroState},
      jaroLoop b sr pairs st = some st' →
      st'.matchCount ≤ st.matchCount + pairs.length := by
  intro pairs
  induction pairs with
  | nil =>
      intro st st' h
      obtain rfl : st = st' := by simpa [jaroLoop] using h
      simp
  | cons p rest ih =>
      obtain ⟨i, aChar⟩ := p
      intro st st' h
      rw [jaroLoop_cons] at h
      rcases hscan : scanWindow b sr i aChar st.consumed with _ | jo
      · simp only [hscan] at h
        exact Option.noConfusion h
      · rcases jo with _ | j
        · simp only [hscan] at h
          have := ih h
          simp only [List.length_cons]
          omega
        · simp only [hscan] at h
          have := ih h
          simp only [List.length_cons] at this ⊢
          omega

/-- C4: whenever `jaro` returns at all (it can panic on multi-byte inputs,
see C2), the value lies in the closed interval `[0, 1]`; identical inputs
give `1` and exactly one empty input gives `0`. -/
theorem jaro_range :
    (∀ (a b : List Char) (v : ℚ), jaro a b = some v → 0 ≤ v ∧ v ≤ 1) ∧
    (∀ a : List Char, jaro a a = some 1) ∧
    (∀ a b : List Char, a = [] → b ≠ [] → jaro a b = some 0) ∧
    (∀ a b : List Char, a ≠ [] → b = [] → jaro a b = some 0) := by
  refine ⟨?_, jaro_self, ?_, ?_⟩
  · intro a b v h
    unfold jaro at h
    by_cases hab : a = b
    · rw [if_pos hab] at h
      rw [Option.some.injEq] at h
      subst h
      norm_num
    · rw [if_neg hab] at h
      by_cases hz : byteLen a = 0 ∨ byteLen b = 0
      · rw [if_pos hz] at h
        rw [Option.some.injEq] at h
        subst h
        norm_num
      · rw [if_neg hz] at h
        push_neg at hz
        rcases hloop : jaroLoop b (searchRange a b) a.enum ⟨∅, 0, 0, 0⟩
          with _ | st
        · simp only [hloop] at h
          exact Option.noConfusion h
        · simp only [hloop] at h
          by_cases hm : st.matchCount = 0
          · rw [if_pos hm, Option.some.injEq] at h
            subst h
            norm_num
          · rw [if_neg hm, Option.some.injEq] at h
            subst h
            have hinv : JaroInv b st :=
              jaroLoop_inv hloop ⟨by simp, by simp, le_refl 0⟩
            have hma : st.matchCount ≤ byteLen a := by
              have h1 := jaroLoop_matchCount_le hloop
              have h2 := length_le_byteLen a
              simp only [List.enum_length] at h1
              omega
            have hmb : st.matchCount ≤ byteLen b := by
              have h1 := Finset.card_le_card hinv.1
              rw [Finset.card_range] at h1
              have h2 := hinv.2.1
              omega
            have htm : st.transpositions ≤ st.matchCount := hinv.2.2
            have h0a : (0 : ℚ) < (byteLen a : ℚ) := by
              exact_mod_cast Nat.pos_of_ne_zero hz.1
            have h0b : (0 : ℚ) < (byteLen b : ℚ) := by
              exact_mod_cast Nat.pos_of_ne_zero hz.2
            have h0m : (0 : ℚ) < (st.matchCount : ℚ) := by
              exact_mod_cast Nat.pos_of_ne_zero hm
            have hx1 : (st.matchCount : ℚ) / (byteLen a : ℚ) ≤ 1 := by
              rw [div_le_one h0a]; exact_mod_cast hma
            have hx0 : (0 : ℚ) ≤ (st.matchCount : ℚ) / (byteLen a : ℚ) := by
              positivity
            have hy1 : (st.matchCount : ℚ) / (byteLen b : ℚ) ≤ 1 := by
              rw [div_le_one h0b]; exact_mod_cast hmb
            have hy0 : (0 : ℚ) ≤ (st.matchCount : ℚ) / (byteLen b : ℚ) := by
              positivity
            have ht0 : (0 : ℚ) ≤ (st.transpositions : ℚ) := by positivity
            have htc : (st.transpositions : ℚ) ≤ (st.matchCount : ℚ) := by
              exact_mod_cast htm
            have hw1 : ((st.matchCount : ℚ) - (st.transpositions : ℚ)) /
                (st.matchCount : ℚ) ≤ 1 := by
              rw [div_le_one h0m]; linarith
            have hw0 : (0 : ℚ) ≤ ((st.matchCount : ℚ) -
                (st.transpositions : ℚ)) / (st.matchCount : ℚ) := by
              apply div_nonneg _ (le_of_lt h0m)
              linarith
            constructor
            · have := mul_nonneg (by norm_num : (0:ℚ) ≤ 1 / 3)
                (by linarith : (0:ℚ) ≤ (st.matchCount : ℚ) / (byteLen a : ℚ) +
                  (st.matchCount : ℚ) / (byteLen b : ℚ) +
                  ((st.matchCount : ℚ) - (st.transpositions : ℚ)) /
                    (st.matchCount : ℚ))
              linarith
            · linarith
  · intro a b ha hb
    subst ha
    unfold jaro
    rw [if_neg (by intro h; exact hb h.symm)]
    rw [if_pos (Or.inl (by simp [byteLen]))]
  · intro a b ha hb
    subst hb
    unfold jaro
    rw [if_neg (by intro h; exact ha h)]
    rw [if_pos (Or.inr (by simp [byteLen]))]

/-- Witness for C4 at concrete inputs: `jaro("ab", "ac") = 2/3 ∈ [0, 1]`,
`jaro("a", "a") = 1`, and one-sided empty inputs give `0`. -/
theorem jaro_range_witness :
    ((0 : ℚ) ≤ 2 / 3 ∧ (2 / 3 : ℚ) ≤ 1) ∧ jaro ['a'] ['a'] = some 1 ∧
    jaro [] ['b'] = some 0 ∧ jaro ['b'] [] = some 0 := by
  refine ⟨jaro_range.1 ['a','b'] ['a','c'] (2 / 3) ?_, jaro_range.2.1 ['a'],
    jaro_range.2.2.1 [] ['b'] rfl (by decide),
    jaro_range.2.2.2 ['b'] [] (by decide) rfl⟩
  have h := jaro_eval ['a','b'] ['a','c'] 1 0 2 2 (by decide) rfl rfl
    (by decide) (by decide) (by decide) (by decide)
  rw [h]
  norm_num

lemma matchSeq_cons (b : List Char) (sr i : ℕ) (aChar : Char)
    (rest : List (ℕ × Char)) (consumed : Finset ℕ) :
    matchSeq b sr ((i, aChar) :: rest) consumed =
      match scanWindow b sr i aChar consumed with
      | none => none
      | some none => matchSeq b sr rest consumed
      | some (some j) =>
          (matchSeq b sr rest (insert j consumed)).map (fun L => j :: L) := by
  have hlo : (if i > sr then i - sr else 0) = i - sr := by
    split <;> omega
  simp only [matchSeq, scanWindow, hlo]

lemma jaroLoop_eq_matchSeq {b : List Char} {sr : ℕ} :
    ∀ (pairs : List (ℕ × Char)) (st : JaroState) (L : List ℕ),
      matchSeq b sr pairs st.consumed = some L →
      jaroLoop b sr pairs st = some
        ⟨L.foldl (fun s j => insert j s) st.consumed,
         st.matchCount + L.length,
         st.transpositions + descSteps st.bMatchIndex L,
         L.getLastD st.bMatchIndex⟩ := by
  intro pairs
  induction pairs with
  | nil =>
      intro st L h
      obtain rfl : L = [] := by simpa [matchSeq] using h.symm
      cases st
      simp [jaroLoop, descSteps]
  | cons p rest ih =>
      obtain ⟨i, aChar⟩ := p
      intro st L h
      rw [matchSeq_cons] at h
      rw [jaroLoop_cons]
      rcases hscan : scanWindow b sr i aChar st.consumed with _ | jo
      · simp only [hscan] at h
        exact Option.noConfusion h
      · rcases jo with _ | j
        · simp only [hscan] at h
          simp only [hscan]
          exact ih st L h
        · simp only [hscan] at h
          rcases hms : matchSeq b sr rest (insert j st.consumed) with _ | L2
          · rw [hms] at h
            exact Option.noConfusion h
          · rw [hms] at h
            simp only [Option.map_some', Option.some.injEq] at h
            subst h
            simp only [hscan]
            have hstep := ih
              ⟨insert j st.consumed, st.matchCount + 1,
               if j < st.bMatchIndex then st.transpositions + 1
               else st.transpositions, j⟩ L2 hms
            rw [hstep]
            simp only [Option.some.injEq, JaroState.mk.injEq]
            refine ⟨rfl, by simp [List.length_cons]; omega, ?_, ?_⟩
            · show (if j < st.bMatchIndex then st.transpositions + 1
                else st.transpositions) + descSteps j L2 =
                st.transpositions + descSteps st.bMatchIndex (j :: L2)
              simp only [descSteps]
              split <;> omega
            · show L2.getLastD j = (j :: L2).getLastD st.bMatchIndex
              rw [List.getLastD_cons]

/-- C6 (amended: the two denominators are the *byte* lengths of `a` and `b`,
not their character counts): when the loop completes with match-position
sequence `L`, the transposition counter equals the number of positions in `L`
strictly smaller than their predecessor (with initial `lastMatchIndex = 0`,
updated on every match including the first), and `jaro` returns `0` with no
matches and otherwise `(1/3) * (m/len(a) + m/len(b) + (m - t)/m)` with
`m = |L|` and `t` that descent count. -/
theorem jaro_transposition_formula (a b : List Char) (hne : a ≠ b)
    (ha : byteLen a ≠ 0) (hb : byteLen b ≠ 0) (L : List ℕ)
    (hL : matchSeq b (searchRange a b) a.enum ∅ = some L) :
    jaro a b = some (if L.length = 0 then 0 else
      (1 / 3) * ((L.length : ℚ) / (byteLen a : ℚ) +
        (L.length : ℚ) / (byteLen b : ℚ) +
        ((L.length : ℚ) - (descSteps 0 L : ℚ)) / (L.length : ℚ))) := by
  have hloop := jaroLoop_eq_matchSeq a.enum ⟨∅, 0, 0, 0⟩ L hL
  unfold jaro
  rw [if_neg hne, if_neg (by simp [ha, hb]), hloop]
  simp only [Nat.zero_add]
  by_cases hL0 : L.length = 0
  · simp [hL0]
  · simp only [hL0, if_false]

/-- Witness for C6 at a concrete input: on `jaro("abc", "acb")` the match
sequence is `[0]`, so the result is `(1/3) * (1/3 + 1/3 + 1) = 5/9`. -/
theorem jaro_transposition_formula_witness :
    jaro ['a','b','c'] ['a','c','b'] = some (5 / 9) := by
  have h := jaro_transposition_formula ['a','b','c'] ['a','c','b']
    (by decide) (by decide) (by decide) [0] (by decide)
  rw [h, show byteLen ['a','b','c'] = 3 from rfl,
    show byteLen ['a','c','b'] = 3 from rfl,
    show descSteps 0 [0] = 0 from rfl]
  norm_num

lemma hamming_count_eq (a b : List Char) :
    ((a.zip b).filter (fun p => p.1 != p.2)).length = diffCount a b := by
  unfold diffCount
  rw [← List.countP_eq_length_filter, ← List.countP_eq_length_filter]
  induction a generalizing b with
  | nil => simp
  | cons x xs ih =>
      cases b with
      | nil => simp
      | cons y ys =>
          rw [List.zip_cons_cons, List.countP_cons]
          simp only [List.length_cons, Nat.succ_min_succ,
            List.range_succ_eq_map, List.countP_cons, List.countP_map]
          rw [ih ys]
          rfl

/-- C3 (amended: the guard compares the *byte* lengths of the two inputs, not
their character counts): `hamming` fails with `DifferentLengthArgs` exactly
when the byte lengths differ, and on equal byte lengths returns the count of
character positions, up to the shorter character count, at which the two
sequences differ. -/
theorem hamming_length_guard (a b : List Char) :
    (hamming a b = Except.error StrSimError.DifferentLengthArgs ↔
      byteLen a ≠ byteLen b) ∧
    (byteLen a = byteLen b → hamming a b = Except.ok (diffCount a b)) := by
  constructor
  · unfold hamming
    by_cases h : byteLen a ≠ byteLen b
    · rw [if_pos h]
      simp [h]
    · rw [if_neg h]
      simp [h]
  · intro h
    unfold hamming
    rw [if_neg (by simp [h]), hamming_count_eq]

/-- Witness for C3's amended theorem at concrete inputs: equal byte lengths
give the mismatch count, and the error characterization instantiates. -/
theorem hamming_length_guard_witness :
    hamming ['a','b'] ['a','c'] = Except.ok (diffCount ['a','b'] ['a','c']) ∧
    (hamming ['a'] ['a','b'] = Except.error StrSimError.DifferentLengthArgs ↔
      byteLen ['a'] ≠ byteLen ['a','b']) :=
  ⟨(hamming_length_guard ['a','b'] ['a','c']).2 rfl,
   (hamming_length_guard ['a'] ['a','b']).1⟩

lemma byteLen_of_width1 {s : List Char} (h : ∀ c ∈ s, utf8Width c = 1) :
    byteLen s = s.length := by
  induction s with
  | nil => simp [byteLen]
  | cons c rest ih =>
      rw [byteLen_cons, h c (by simp), ih (fun d hd => h d (by simp [hd]))]
      simp [Nat.add_comm]

lemma charAt_of_width1 {s : List Char} (h : ∀ c ∈ s, utf8Width c = 1) :
    ∀ j, charAt s j = s.get? j := by
  induction s with
  | nil => intro j; simp [charAt]
  | cons c rest ih =>
      intro j
      have hc : utf8Width c = 1 := h c (by simp)
      unfold charAt
      rw [hc]
      cases j with
      | zero => simp
      | succ k =>
          rw [if_neg (by omega), if_neg (by omega)]
          simpa using ih (fun d hd => h d (by simp [hd])) k

lemma scanRange_eq_find {b : List Char} {aChar : Char} {consumed : Finset ℕ}
    (hb : ∀ c ∈ b, utf8Width c = 1) :
    ∀ k j, j + k ≤ b.length →
      scanRange b aChar consumed j k =
        some ((List.range' j k).find?
          (fun x => decide (b.get? x = some aChar ∧ x ∉ consumed))) := by
  intro k
  induction k with
  | zero => intro j _; simp [scanRange]
  | succ k ih =>
      intro j hj
      have hjlt : j < b.length := by omega
      obtain ⟨c, hc⟩ : ∃ c, b.get? j = some c := by
        rw [List.get?_eq_get hjlt]
        exact ⟨_, rfl⟩
      unfold scanRange
      simp only [charAt_of_width1 hb j, hc]
      rw [List.range'_succ]
      by_cases hcond : c = aChar ∧ j ∉ consumed
      · have hp : decide (b.get? j = some aChar ∧ j ∉ consumed) = true := by
          simp only [hc, decide_eq_true_eq, Option.some.injEq]
          exact hcond
        rw [if_pos hcond]
        simp only [List.find?, hp]
      · have hp : decide (b.get? j = some aChar ∧ j ∉ consumed) = false := by
          simp only [hc, decide_eq_false_iff_not, Option.some.injEq]
          exact hcond
        rw [if_neg hcond]
        simp only [List.find?, hp]
        exact ih (j + 1) (by omega)

lemma jaroLoop_eq_specLoop {b : List Char} {sr : ℕ} (hbne : b ≠ [])
    (hb : ∀ c ∈ b, utf8Width c = 1) :
    ∀ (pairs : List (ℕ × Char)) (st : JaroState),
      jaroLoop b sr pairs st = some (jaroSpecLoop b sr pairs st) := by
  intro pairs
  induction pairs with
  | nil => intro st; simp [jaroLoop, jaroSpecLoop]
  | cons p rest ih =>
      obtain ⟨i, aChar⟩ := p
      intro st
      have hlen : byteLen b = b.length := byteLen_of_width1 hb
      have hb1 : 1 ≤ b.length := by
        cases b with
        | nil => exact absurd rfl hbne
        | cons x xs => simp
      have hwin : scanWindow b sr i aChar st.consumed =
          some (specFind b aChar st.consumed (i - sr)
            (min (b.length - 1) (i + sr))) := by
        unfold scanWindow specFind
        rw [hlen]
        by_cases hcase : i - sr ≤ min (b.length - 1) (i + sr)
        · exact scanRange_eq_find hb _ _ (by omega)
        · have h0 : min (b.length - 1) (i + sr) + 1 - (i - sr) = 0 := by omega
          rw [h0]
          simp [scanRange]
      rw [jaroLoop_cons, hwin]
      rcases hfind : specFind b aChar st.consumed (i - sr)
          (min (b.length - 1) (i + sr)) with _ | j
      · simp only [hfind]
        rw [ih st]
        simp only [jaroSpecLoop, hfind]
      · simp only [hfind]
        rw [ih]
        simp only [jaroSpecLoop, hfind]

lemma jaro_single {c d : Char} (hcd : c ≠ d) (h1c : utf8Width c = 1)
    (h1d : utf8Width d = 1) :
    jaro [c] [d] = some 0 ∧ jaroSpec [c] [d] = 0 := by
  have hdc : d ≠ c := Ne.symm hcd
  have hne : ([c] : List Char) ≠ [d] := by simp [hcd]
  have hblc : byteLen [c] = 1 := by rw [byteLen_cons, h1c]; rfl
  have hbld : byteLen [d] = 1 := by rw [byteLen_cons, h1d]; rfl
  have hsr : searchRange [c] [d] = 2 ^ 64 - 1 := by
    unfold searchRange wrapPred
    rw [hblc, hbld]
    simp
  constructor
  · unfold jaro
    rw [if_neg hne, if_neg (by rw [hblc, hbld]; simp)]
    rw [hsr, show ([c] : List Char).enum = [(0, c)] from rfl, jaroLoop_cons]
    have hw : scanWindow [d] (2 ^ 64 - 1) 0 c ∅ = some none := by
      unfold scanWindow
      rw [hbld]
      norm_num
      unfold scanRange
      simp only [show charAt [d] 0 = some d from rfl]
      rw [if_neg (by simp [hdc])]
      rfl
    rw [hw]
    simp [jaroLoop]
  · unfold jaroSpec
    rw [if_neg hne, if_neg (by simp)]
    have hs0 : max ([c] : List Char).length ([d] : List Char).length / 2 - 1
        = 0 := by simp
    rw [hs0]
    simp [jaroSpecLoop, specFind, List.range', List.find?, hdc]

/-- C5 (amended: the search range and the scan window are computed from the
*byte* lengths, and the scanned positions `j` are byte offsets of `b` read
with `char_at`, which panics at non-boundary offsets; on inputs whose
characters are all single-byte, byte offsets coincide with character
positions so the code realizes the spec procedure exactly): for all
single-byte inputs, `jaro` returns the character-unit `jaroSpec` value. -/
theorem jaro_ascii_matches_spec (a b : List Char)
    (ha : ∀ c ∈ a, utf8Width c = 1) (hb : ∀ c ∈ b, utf8Width c = 1) :
    jaro a b = some (jaroSpec a b) := by
  by_cases hab : a = b
  · subst hab
    rw [jaro_self]
    unfold jaroSpec
    rw [if_pos rfl]
  · have hla : byteLen a = a.length := byteLen_of_width1 ha
    have hlb : byteLen b = b.length := byteLen_of_width1 hb
    by_cases hz : a.length = 0 ∨ b.length = 0
    · have h1 : jaro a b = some 0 := by
        unfold jaro
        rw [if_neg hab, if_pos (by rw [hla, hlb]; exact hz)]
      have h2 : jaroSpec a b = 0 := by
        unfold jaroSpec
        rw [if_neg hab, if_pos hz]
      rw [h1, h2]
    · push_neg at hz
      have hbne : b ≠ [] := by
        intro h
        rw [h] at hz
        exact hz.2 rfl
      by_cases hsmall : max (byteLen a) (byteLen b) / 2 = 0
      · have h1a : a.length = 1 := by
          have := Nat.pos_of_ne_zero hz.1
          rw [← hla]
          rw [← hla] at this
          omega
        have h1b : b.length = 1 := by
          have := Nat.pos_of_ne_zero hz.2
          rw [← hlb]
          rw [← hlb] at this
          omega
        obtain ⟨c, rfl⟩ := List.length_eq_one.mp h1a
        obtain ⟨d, rfl⟩ := List.length_eq_one.mp h1b
        have hcd : c ≠ d := fun h => hab (by rw [h])
        have h1c : utf8Width c = 1 := ha c (by simp)
        have h1d : utf8Width d = 1 := hb d (by simp)
        rw [(jaro_single hcd h1c h1d).1, (jaro_single hcd h1c h1d).2]
      · have hsr : searchRange a b = max a.length b.length / 2 - 1 := by
          unfold searchRange wrapPred
          rw [if_neg hsmall, hla, hlb]
        simp only [jaro, jaroSpec, if_neg hab, hla, hlb,
          if_neg (show ¬(a.length = 0 ∨ b.length = 0) by
            push_neg
            exact hz)]
        rw [hsr, jaroLoop_eq_specLoop hbne hb a.enum ⟨∅, 0, 0, 0⟩]
        by_cases hm : (jaroSpecLoop b (max a.length b.length / 2 - 1)
            a.enum ⟨∅, 0, 0, 0⟩).matchCount = 0
        · simp [hm]
        · simp [hm]

/-- Witness for C5's amended theorem on the crate's own test pair
`("dixon", "dicksonx")`, whose characters are all single-byte. -/
theorem jaro_ascii_matches_spec_witness :
    jaro ['d','i','x','o','n'] ['d','i','c','k','s','o','n','x'] =
      some (jaroSpec ['d','i','x','o','n'] ['d','i','c','k','s','o','n','x']) :=
  jaro_ascii_matches_spec _ _ (by decide) (by decide)

end Strsim